import Mathlib

/-!
Verification of the header-handling core of this HTTP/1.1 library
(`h11/headers.py`) against its natural-language specification.

Modelling conventions:
* A byte string is a `List Nat` (each element one byte value); `bs` turns an
  ASCII string literal into its byte list.
* Header lists are `List (Bytes × Bytes)` pairs of (name, value).
* The embedding works on the canonical byte representation, so `bytesify`
  (which converts text to bytes and is the identity on byte input) is the
  identity here.
* Python exceptions become `Except`; `ProtocolError` is the inductive
  `HeaderError`, with one constructor per distinct raise site in
  `normalize_and_validate`.
-/

set_option autoImplicit false

abbrev Bytes := List Nat

abbrev HeadersT := List (Bytes × Bytes)

/-- Byte list of an ASCII string literal (ASCII code points are byte values). -/
def bs (s : String) : Bytes := s.toList.map Char.toNat

/-- ASCII whitespace as recognised by Python `bytes.strip()`:
space, tab, newline, carriage return, vertical tab, form feed. -/
def isWS (b : Nat) : Bool :=
  b == 32 || b == 9 || b == 10 || b == 13 || b == 11 || b == 12

/-- ASCII decimal digit test. -/
def isDigit (b : Nat) : Bool := 48 ≤ b && b ≤ 57

/-- Python `bytes.lower()` on a single byte: map A-Z to a-z, fix the rest. -/
def lowerByte (b : Nat) : Nat := if 65 ≤ b && b ≤ 90 then b + 32 else b

/-- Python `bytes.lower()`. -/
def lower (v : Bytes) : Bytes := v.map lowerByte

/-- Python `bytes.strip()`: drop ASCII whitespace from both ends. -/
def stripB (v : Bytes) : Bytes :=
  ((v.dropWhile isWS).reverse.dropWhile isWS).reverse

/-- Python `value.split(b",")`: split on every comma byte, keeping empty
pieces (so the result always has one more piece than there are commas). -/
def splitComma : Bytes → List Bytes
  | [] => [[]]
  | c :: rest =>
    match splitComma rest with
    | [] => [[c]]
    | p :: ps => if c = 44 then [] :: p :: ps else (c :: p) :: ps

/-- Digit-run tail of Python `int()` parsing: consumes ASCII digits, allowing
a single underscore between two digits, accumulating the base-10 value. -/
def pyIntDigits : List Nat → Nat → Option Nat
  | [], acc => some acc
  | [c], acc => if isDigit c then some (acc * 10 + (c - 48)) else none
  | c :: c2 :: rest, acc =>
    if isDigit c then pyIntDigits (c2 :: rest) (acc * 10 + (c - 48))
    else if c == 95 && isDigit c2 then pyIntDigits rest (acc * 10 + (c2 - 48))
    else none

/-- Unsigned part of Python `int()`: at least one leading digit, then a
digit/underscore run. -/
def pyIntCore : List Nat → Option Nat
  | [] => none
  | c :: rest => if isDigit c then pyIntDigits rest (c - 48) else none

/-- Models Python `int(b)` on a byte string: strip surrounding ASCII
whitespace, accept an optional sign, then base-10 digits with single
underscores allowed between digits; `none` models the `ValueError` raise. -/
def pyInt (v : Bytes) : Option Int :=
  match stripB v with
  | 43 :: rest => (pyIntCore rest).map (fun n => (n : Int))
  | 45 :: rest => (pyIntCore rest).map (fun n => -(n : Int))
  | s => (pyIntCore s).map (fun n => (n : Int))

instance {ε α : Type} [DecidableEq ε] [DecidableEq α] : DecidableEq (Except ε α) :=
  fun a b =>
    match a, b with
    | .error e, .error f =>
      if h : e = f then isTrue (by rw [h])
      else isFalse (fun c => h (Except.error.inj c))
    | .error _, .ok _ => isFalse (fun c => Except.noConfusion c)
    | .ok _, .error _ => isFalse (fun c => Except.noConfusion c)
    | .ok x, .ok y =>
      if h : x = y then isTrue (by rw [h])
      else isFalse (fun c => h (Except.ok.inj c))

/-- Error taxonomy of `normalize_and_validate`: one constructor per
`raise ProtocolError(...)` site in the source. -/
inductive HeaderError where
  | illegalHeaderName (name : Bytes)
  | multipleContentLength
  | badContentLength
  | multipleTransferEncoding
  | unsupportedTransferEncoding
deriving DecidableEq, Repr

/-- Byte constant for the lower-cased header name compared at line 61. -/
def clName : Bytes := bs "content-length"

/-- Byte constant for the lower-cased header name compared at line 66. -/
def teName : Bytes := bs "transfer-encoding"

/-- Byte constant for the only accepted Transfer-Encoding value. -/
def chunkedB : Bytes := bs "chunked"

/-- Modelled from the spec: `util.validate` applied to the regex
`^[0-9]+$` (the file `h11/util.py` is not part of the provided sources).
Per the spec this is a bounded scan confirming the value is a non-empty
run of ASCII digits. -/
def validCL (v : Bytes) : Bool := !v.isEmpty && v.all isDigit

/-- Loop body of `normalize_and_validate`, threading the two `saw_*` flags.
Checks per entry, in source order: whitespace-surrounded name, then the
Content-Length block (duplicate, digits-only), then the Transfer-Encoding
block (duplicate, value `chunked` up to case), then append. The two name
comparisons are sequential `if`s in the source but cannot both hold, so the
`else if` chain is equivalent. -/
def normGo : Bool → Bool → HeadersT → Except HeaderError HeadersT
  | _, _, [] => .ok []
  | sawCL, sawTE, (name, value) :: rest =>
    if stripB name ≠ name then .error (.illegalHeaderName name)
    else if lower name = clName then
      if sawCL then .error .multipleContentLength
      else if !validCL value then .error .badContentLength
      else (normGo true sawTE rest).map (fun tl => (name, value) :: tl)
    else if lower name = teName then
      if sawTE then .error .multipleTransferEncoding
      else if lower value ≠ chunkedB then .error .unsupportedTransferEncoding
      else (normGo sawCL true rest).map (fun tl => (name, value) :: tl)
    else (normGo sawCL sawTE rest).map (fun tl => (name, value) :: tl)

/-- `normalize_and_validate(headers)` from `h11/headers.py` lines 43-75,
on the canonical byte representation of the input. -/
def normalize_and_validate (headers : HeadersT) : Except HeaderError HeadersT :=
  normGo false false headers

/-- Inner loop of `get_comma_header`: for each split piece, strip it and
keep it when non-empty. -/
def gchInner : List Bytes → List Bytes
  | [] => []
  | p :: ps =>
    let s := stripB p
    if s ≠ [] then s :: gchInner ps else gchInner ps

/-- Per-matching-header token extraction of `get_comma_header`: optionally
lower-case the raw value, split it on commas, strip each piece, drop
empties. -/
def gchTokens (lowercase : Bool) (v : Bytes) : List Bytes :=
  gchInner (splitComma (if lowercase then lower v else v))

/-- Outer loop of `get_comma_header` over the header list, comparing
lower-cased found names against the already lower-cased search name. -/
def gchLoop (nameLower : Bytes) (lowercase : Bool) : HeadersT → List Bytes
  | [] => []
  | (fn, fv) :: rest =>
    (if lower fn = nameLower then gchTokens lowercase fv else []) ++
      gchLoop nameLower lowercase rest

/-- `get_comma_header(headers, name, lowercase=...)` from `h11/headers.py`
lines 77-123. -/
def get_comma_header (headers : HeadersT) (name : Bytes) (lowercase : Bool) :
    List Bytes :=
  gchLoop (lower name) lowercase headers

/-- `set_comma_header(headers, name, new_values)` from `h11/headers.py`
lines 126-135, modelled as the pure function computing the list the source
assigns back into `headers[:]` (the in-place rewrite): first loop keeps
non-matching entries, second loop appends one entry per new value. -/
def set_comma_header (headers : HeadersT) (name : Bytes) (newValues : List Bytes) :
    HeadersT :=
  newValues.foldl (fun acc v => acc ++ [(name, v)])
    (headers.foldl
      (fun acc p => if lower p.1 ≠ lower name then acc ++ [p] else acc) [])

/-- Failure modes of `framing_headers` beyond its normal return: the
`assert transfer_encodings == [b"chunked"]` (an `AssertionError` in
Python), and `int()` raising `ValueError` on an unparseable first
Content-Length token. -/
inductive FramingError where
  | assertChunked
  | intParse
deriving DecidableEq, Repr

/-- `framing_headers(headers)` from `h11/headers.py` lines 137-159:
Transfer-Encoding first (with the sanity assert), then the first
Content-Length comma token through `int()`, else `(None, None)`. -/
def framing_headers (headers : HeadersT) :
    Except FramingError (Option Bytes × Option Int) :=
  if get_comma_header headers (bs "Transfer-Encoding") true ≠ [] then
    if get_comma_header headers (bs "Transfer-Encoding") true = [chunkedB] then
      .ok (some chunkedB, none)
    else .error .assertChunked
  else
    match get_comma_header headers (bs "Content-Length") true with
    | [] => .ok (none, none)
    | c :: _ =>
      match pyInt c with
      | some n => .ok (none, some n)
      | none => .error .intParse

/-- Python `bytes.__lt__`: lexicographic byte order, a strict prefix being
smaller. -/
def bytesLt : Bytes → Bytes → Bool
  | [], [] => false
  | [], _ :: _ => true
  | _ :: _, [] => false
  | a :: as', b :: bs' =>
    if a < b then true else if b < a then false else bytesLt as' bs'

/-- Request shape consumed by `has_expect_100_continue`: the protocol
version bytes and the header list. -/
structure Request where
  http_version : Bytes
  headers : HeadersT

/-- `has_expect_100_continue(request)` from `h11/headers.py` lines
161-169. -/
def has_expect_100_continue (request : Request) : Bool :=
  if bytesLt request.http_version (bs "1.1") then false
  else
    decide (bs "100-continue" ∈ get_comma_header request.headers (bs "Expect") false)

/-- Spec-worded token extraction (§4.2 of the spec, claim C7): split the
value on commas, trim whitespace from each piece, drop empty pieces, then
lower-case each piece iff `caseFold` is set. -/
def specTokens (caseFold : Bool) (v : Bytes) : List Bytes :=
  (((splitComma v).map stripB).filter (fun s => decide (s ≠ []))).map
    (fun s => if caseFold then lower s else s)

/-- Spec-worded `getCommaList` (§4.2 of the spec, claim C7): for each
case-insensitively matching header in list order, append its `specTokens`. -/
def getCommaListSpec (headers : HeadersT) (name : Bytes) (caseFold : Bool) :
    List Bytes :=
  ((headers.filter (fun p => decide (lower p.1 = lower name))).map
    (fun p => specTokens caseFold p.2)).flatten

/-- Violation scan as claim C2 must be amended to match the code: per entry
in input order, a whitespace-surrounded name, a duplicate Content-Length, a
Content-Length whose raw (unstripped) value is not a non-empty digit run, a
duplicate Transfer-Encoding, or a Transfer-Encoding whose raw lower-cased
value is not exactly `chunked`; the first violation is reported. -/
def violationScan : Bool → Bool → HeadersT → Option HeaderError
  | _, _, [] => none
  | sawCL, sawTE, (name, value) :: rest =>
    if stripB name ≠ name then some (.illegalHeaderName name)
    else if lower name = clName then
      if sawCL then some .multipleContentLength
      else if !validCL value then some .badContentLength
      else violationScan true sawTE rest
    else if lower name = teName then
      if sawTE then some .multipleTransferEncoding
      else if lower value ≠ chunkedB then some .unsupportedTransferEncoding
      else violationScan sawCL true rest
    else violationScan sawCL sawTE rest

/-- Violation scan exactly as claim C2 states it, validating the
whitespace-STRIPPED value of Content-Length and Transfer-Encoding entries. -/
def violationScanStripped : Bool → Bool → HeadersT → Option HeaderError
  | _, _, [] => none
  | sawCL, sawTE, (name, value) :: rest =>
    if stripB name ≠ name then some (.illegalHeaderName name)
    else if lower name = clName then
      if sawCL then some .multipleContentLength
      else if !validCL (stripB value) then some .badContentLength
      else violationScanStripped true sawTE rest
    else if lower name = teName then
      if sawTE then some .multipleTransferEncoding
      else if lower (stripB value) ≠ chunkedB then some .unsupportedTransferEncoding
      else violationScanStripped sawCL true rest
    else violationScanStripped sawCL sawTE rest

/-- Valid header list in the sense of claim C6: no whitespace-surrounded
names, at most one Content-Length entry and its value all-digit, at most one
Transfer-Encoding entry and its value `chunked` up to case. -/
def validListB (l : HeadersT) : Bool :=
  l.all (fun p => decide (stripB p.1 = p.1)) &&
  decide ((l.filter (fun p => decide (lower p.1 = clName))).length ≤ 1) &&
  l.all (fun p => !(decide (lower p.1 = clName)) || validCL p.2) &&
  decide ((l.filter (fun p => decide (lower p.1 = teName))).length ≤ 1) &&
  l.all (fun p => !(decide (lower p.1 = teName)) || decide (lower p.2 = chunkedB))

example : splitComma (bs "a, b ,c") = [bs "a", bs " b ", bs "c"] := by decide
example : get_comma_header [(bs "X", bs "a, b ,c")] (bs "X") true =
    [bs "a", bs "b", bs "c"] := by decide
example : normalize_and_validate [(bs "Content-Length", bs " 5")] =
    .error .badContentLength := by decide
example : normalize_and_validate [(bs "Foo", bs " bar ")] =
    .ok [(bs "Foo", bs " bar ")] := by decide
example : framing_headers [(bs "Content-Length", bs "5, 6")] =
    .ok (none, some 5) := by decide
example : framing_headers [(bs "Transfer-Encoding", bs "chunked"),
    (bs "Content-Length", bs "10")] = .ok (some (bs "chunked"), none) := by decide
example : set_comma_header [(bs "A", bs "1"), (bs "B", bs "2"), (bs "A", bs "3")]
    (bs "A") [bs "9"] = [(bs "B", bs "2"), (bs "A", bs "9")] := by decide
example : has_expect_100_continue ⟨bs "1.1", [(bs "Expect", bs "100-Continue")]⟩ =
    false := by decide
example : has_expect_100_continue ⟨bs "1.1", [(bs "Expect", bs "100-continue")]⟩ =
    true := by decide
example : has_expect_100_continue ⟨bs "1.0", [(bs "Expect", bs "100-continue")]⟩ =
    false := by decide
example : pyInt (bs "42") = some 42 := by decide
example : pyInt (bs " -4_2") = some (-42) := by decide
example : pyInt (bs "4a") = none := by decide

theorem isWS_lowerByte (b : Nat) : isWS (lowerByte b) = isWS b := by
  unfold lowerByte
  split
  · rename_i h
    simp only [Bool.and_eq_true, decide_eq_true_eq] at h
    have h1 : isWS (b + 32) = false := by
      simp only [isWS, Bool.or_eq_false_iff, beq_eq_false_iff_ne, ne_eq]
      omega
    have h2 : isWS b = false := by
      simp only [isWS, Bool.or_eq_false_iff, beq_eq_false_iff_ne, ne_eq]
      omega
    rw [h1, h2]
  · rfl

theorem lowerByte_eq_comma (b : Nat) : lowerByte b = 44 ↔ b = 44 := by
  unfold lowerByte
  split
  · rename_i h
    simp only [Bool.and_eq_true, decide_eq_true_eq] at h
    omega
  · exact Iff.rfl

theorem lowerByte_digit {b : Nat} (h : isDigit b = true) : lowerByte b = b := by
  simp only [isDigit, Bool.and_eq_true, decide_eq_true_eq] at h
  unfold lowerByte
  split
  · rename_i h2
    simp only [Bool.and_eq_true, decide_eq_true_eq] at h2
    omega
  · rfl

theorem isDigit_not_ws {b : Nat} (h : isDigit b = true) : isWS b = false := by
  simp only [isDigit, Bool.and_eq_true, decide_eq_true_eq] at h
  simp only [isWS, Bool.or_eq_false_iff, beq_eq_false_iff_ne, ne_eq]
  omega

theorem isDigit_ne_comma {b : Nat} (h : isDigit b = true) : b ≠ 44 := by
  simp only [isDigit, Bool.and_eq_true, decide_eq_true_eq] at h
  omega

theorem dropWhile_lower (v : Bytes) :
    (lower v).dropWhile isWS = lower (v.dropWhile isWS) := by
  induction v with
  | nil => rfl
  | cons c cs ih =>
    by_cases h : isWS c = true
    · simp only [lower, List.map_cons, List.dropWhile_cons, isWS_lowerByte, h,
        if_true]
      exact ih
    · simp only [Bool.not_eq_true] at h
      simp only [lower, List.map_cons, List.dropWhile_cons, isWS_lowerByte, h,
        Bool.false_eq_true, if_false]

theorem reverse_lower (v : Bytes) : (lower v).reverse = lower v.reverse := by
  simp [lower]

theorem stripB_lower (v : Bytes) : stripB (lower v) = lower (stripB v) := by
  unfold stripB
  rw [dropWhile_lower, reverse_lower, dropWhile_lower, reverse_lower]

theorem lower_eq_nil (v : Bytes) : lower v = [] ↔ v = [] := by
  simp [lower]

theorem splitComma_ne_nil (v : Bytes) : splitComma v ≠ [] := by
  induction v with
  | nil => simp [splitComma]
  | cons c cs ih =>
    simp only [splitComma]
    cases h : splitComma cs with
    | nil => simp
    | cons p ps => by_cases hc : c = 44 <;> simp [hc]

theorem splitComma_lower (v : Bytes) :
    splitComma (lower v) = (splitComma v).map lower := by
  induction v with
  | nil => rfl
  | cons c cs ih =>
    cases h : splitComma cs with
    | nil => exact absurd h (splitComma_ne_nil cs)
    | cons p ps =>
      have hl : splitComma (lower cs) = lower p :: ps.map lower := by
        rw [ih, h, List.map_cons]
      show splitComma (lowerByte c :: lower cs) = _
      by_cases hc : c = 44
      · subst hc
        simp only [splitComma, hl, h]
        norm_num [lowerByte, lower]
      · have hc' : lowerByte c ≠ 44 := fun e => hc ((lowerByte_eq_comma c).mp e)
        simp only [splitComma, hl, h]
        rw [if_neg hc', if_neg hc]
        simp [lower]

theorem splitComma_no_comma : ∀ v : Bytes, (∀ b ∈ v, b ≠ 44) → splitComma v = [v]
  | [], _ => rfl
  | c :: cs, h => by
    have ih := splitComma_no_comma cs (fun b hb => h b (List.mem_cons_of_mem _ hb))
    simp only [splitComma, ih]
    rw [if_neg (h c (List.mem_cons_self c cs))]

theorem dropWhile_eq_self_of_not {v : Bytes}
    (h : ∀ b ∈ v, isWS b = false) : v.dropWhile isWS = v := by
  cases v with
  | nil => rfl
  | cons c cs =>
    simp [List.dropWhile_cons, h c (List.mem_cons_self c cs)]

theorem stripB_eq_self {v : Bytes} (h : ∀ b ∈ v, isWS b = false) :
    stripB v = v := by
  unfold stripB
  rw [dropWhile_eq_self_of_not h,
    dropWhile_eq_self_of_not (fun b hb => h b (List.mem_reverse.mp hb)),
    List.reverse_reverse]

theorem lower_eq_self_of_digits : ∀ {v : Bytes},
    (∀ b ∈ v, isDigit b = true) → lower v = v
  | [], _ => rfl
  | c :: cs, h => by
    have ih := lower_eq_self_of_digits (v := cs)
      (fun b hb => h b (List.mem_cons_of_mem _ hb))
    simp only [lower, List.map_cons] at ih ⊢
    rw [lowerByte_digit (h c (List.mem_cons_self c cs)), ih]

theorem gchInner_eq (ps : List Bytes) :
    gchInner ps = (ps.map stripB).filter (fun s => decide (s ≠ [])) := by
  induction ps with
  | nil => rfl
  | cons p rest ih =>
    by_cases h : stripB p = []
    · simp [gchInner, h, ih, List.filter_cons]
    · simp [gchInner, h, ih, List.filter_cons]

theorem gchLoop_eq (n : Bytes) (lc : Bool) : ∀ l : HeadersT,
    gchLoop n lc l =
      ((l.filter (fun p => decide (lower p.1 = n))).map
        (fun p => gchTokens lc p.2)).flatten
  | [] => rfl
  | (fn, fv) :: rest => by
    have ih := gchLoop_eq n lc rest
    by_cases h : lower fn = n
    · simp [gchLoop, List.filter_cons, h, ih]
    · simp [gchLoop, List.filter_cons, h, ih]

theorem except_map_ok {ε α β : Type} {f : α → β} {e : Except ε α} {b : β}
    (h : e.map f = .ok b) : ∃ a, e = .ok a ∧ b = f a := by
  cases e with
  | error x => simp [Except.map] at h
  | ok a => exact ⟨a, rfl, by simpa [Except.map] using h.symm⟩

theorem clName_ne_teName : clName ≠ teName := by decide

theorem gchTokens_chunked {v : Bytes} (h : lower v = chunkedB) :
    gchTokens true v = [chunkedB] := by
  unfold gchTokens
  simp only [if_true]
  rw [h]
  decide

theorem validCL_digits {v : Bytes} (h : validCL v = true) :
    v ≠ [] ∧ ∀ b ∈ v, isDigit b = true := by
  simp only [validCL, Bool.and_eq_true, Bool.not_eq_true', List.all_eq_true] at h
  refine ⟨?_, h.2⟩
  intro hnil
  subst hnil
  simp at h

theorem gchTokens_digits {v : Bytes} (h : validCL v = true) :
    gchTokens true v = [v] := by
  obtain ⟨hne, hd⟩ := validCL_digits h
  unfold gchTokens
  simp only [if_true]
  rw [lower_eq_self_of_digits hd,
    splitComma_no_comma v (fun b hb => isDigit_ne_comma (hd b hb))]
  simp [gchInner, stripB_eq_self (fun b hb => isDigit_not_ws (hd b hb)), hne]

theorem pyIntDigits_digits : ∀ (l : List Nat) (acc : Nat),
    (∀ b ∈ l, isDigit b = true) → ∃ n, pyIntDigits l acc = some n
  | [], acc, _ => ⟨acc, rfl⟩
  | [c], acc, h =>
    ⟨acc * 10 + (c - 48), by
      rw [pyIntDigits, if_pos (h c (List.mem_cons_self c []))]⟩
  | c :: c2 :: rest, acc, h => by
    have hc := h c (List.mem_cons_self _ _)
    obtain ⟨n, hn⟩ := pyIntDigits_digits (c2 :: rest) (acc * 10 + (c - 48))
      (fun b hb => h b (List.mem_cons_of_mem _ hb))
    exact ⟨n, by rw [pyIntDigits, if_pos hc]; exact hn⟩

theorem pyInt_map_core {v : Bytes} (hd : ∀ b ∈ v, isDigit b = true)
    (hstrip : stripB v = v) :
    pyInt v = (pyIntCore v).map (fun n => (n : Int)) := by
  unfold pyInt
  rw [hstrip]
  split
  · have h43 : isDigit 43 = true := hd 43 (List.mem_cons_self _ _)
    simp [isDigit] at h43
  · have h45 : isDigit 45 = true := hd 45 (List.mem_cons_self _ _)
    simp [isDigit] at h45
  · rfl

theorem pyInt_validCL {v : Bytes} (h : validCL v = true) :
    ∃ n : Nat, pyInt v = some (n : Int) := by
  obtain ⟨hne, hd⟩ := validCL_digits h
  have hstrip : stripB v = v := stripB_eq_self (fun b hb => isDigit_not_ws (hd b hb))
  rw [pyInt_map_core hd hstrip]
  cases v with
  | nil => exact absurd rfl hne
  | cons c cs =>
    have hc := hd c (List.mem_cons_self c cs)
    obtain ⟨n, hn⟩ := pyIntDigits_digits cs (c - 48)
      (fun b hb => hd b (List.mem_cons_of_mem _ hb))
    exact ⟨n, by rw [pyIntCore, if_pos hc, hn]; rfl⟩

theorem length_le_one_cases {α : Type} {l : List α} (h : l.length ≤ 1) :
    l = [] ∨ ∃ a, l = [a] := by
  cases l with
  | nil => exact Or.inl rfl
  | cons a rest =>
    cases rest with
    | nil => exact Or.inr ⟨a, rfl⟩
    | cons b rest2 => simp at h

theorem normGo_ok_inv : ∀ (l : HeadersT) (sawCL sawTE : Bool) (l' : HeadersT),
    normGo sawCL sawTE l = .ok l' →
    l' = l ∧
    (∀ p ∈ l, stripB p.1 = p.1) ∧
    (∀ p ∈ l, lower p.1 = clName → validCL p.2 = true) ∧
    (∀ p ∈ l, lower p.1 = teName → lower p.2 = chunkedB) ∧
    (l.filter (fun p => decide (lower p.1 = clName))).length +
      (if sawCL then 1 else 0) ≤ 1 ∧
    (l.filter (fun p => decide (lower p.1 = teName))).length +
      (if sawTE then 1 else 0) ≤ 1
  | [], sawCL, sawTE, l', h => by
    have hl : l' = ([] : HeadersT) := by
      simpa [normGo] using (Except.ok.inj h).symm
    subst hl
    refine ⟨rfl, by simp, by simp, by simp, ?_, ?_⟩ <;>
      · simp only [List.filter_nil, List.length_nil, Nat.zero_add]
        split <;> omega
  | (name, value) :: rest, sawCL, sawTE, l', h => by
    rw [normGo] at h
    split at h
    · exact absurd h (by simp)
    · rename_i hname
      rw [not_not] at hname
      split at h
      · rename_i hcl
        split at h
        · exact absurd h (by simp)
        · rename_i hsawCL
          split at h
          · exact absurd h (by simp)
          · rename_i hval
            have hvalT : validCL value = true := by
              cases hvb : validCL value with
              | true => rfl
              | false => rw [hvb] at hval; exact absurd rfl hval
            obtain ⟨tl, htl, hl'⟩ := except_map_ok h
            obtain ⟨heq, hn, hcv, htv, hc1, hc2⟩ := normGo_ok_inv rest true sawTE tl htl
            subst heq
            subst hl'
            have hsawCL' : sawCL = false := by
              cases sawCL with
              | false => rfl
              | true => exact absurd rfl hsawCL
            subst hsawCL'
            refine ⟨rfl, ?_, ?_, ?_, ?_, ?_⟩
            · intro p hp
              rcases List.mem_cons.mp hp with h1 | h1
              · rw [h1]; exact hname
              · exact hn p h1
            · intro p hp
              rcases List.mem_cons.mp hp with h1 | h1
              · rw [h1]; intro _; exact hvalT
              · exact hcv p h1
            · intro p hp
              rcases List.mem_cons.mp hp with h1 | h1
              · rw [h1]
                intro hte
                exact absurd (hcl.symm.trans hte) clName_ne_teName
              · exact htv p h1
            · rw [List.filter_cons_of_pos (by simp [hcl]), List.length_cons]
              have h1 : (List.filter (fun p => decide (lower p.1 = clName)) tl).length
                  + 1 ≤ 1 := hc1
              show (List.filter (fun p => decide (lower p.1 = clName)) tl).length
                  + 1 + 0 ≤ 1
              omega
            · rw [List.filter_cons_of_neg (by
                simp only [decide_eq_true_eq]
                exact fun hte => clName_ne_teName (hcl.symm.trans hte))]
              exact hc2
      · rename_i hncl
        split at h
        · rename_i hte
          split at h
          · exact absurd h (by simp)
          · rename_i hsawTE
            split at h
            · exact absurd h (by simp)
            · rename_i hvalte
              rw [not_not] at hvalte
              obtain ⟨tl, htl, hl'⟩ := except_map_ok h
              obtain ⟨heq, hn, hcv, htv, hc1, hc2⟩ := normGo_ok_inv rest sawCL true tl htl
              subst heq
              subst hl'
              have hsawTE' : sawTE = false := by
                cases sawTE with
                | false => rfl
                | true => exact absurd rfl hsawTE
              subst hsawTE'
              refine ⟨rfl, ?_, ?_, ?_, ?_, ?_⟩
              · intro p hp
                rcases List.mem_cons.mp hp with h1 | h1
                · rw [h1]; exact hname
                · exact hn p h1
              · intro p hp
                rcases List.mem_cons.mp hp with h1 | h1
                · rw [h1]
                  intro hcl2
                  exact absurd hcl2 hncl
                · exact hcv p h1
              · intro p hp
                rcases List.mem_cons.mp hp with h1 | h1
                · rw [h1]; intro _; exact hvalte
                · exact htv p h1
              · rw [List.filter_cons_of_neg (by
                  simp only [decide_eq_true_eq]
                  exact hncl)]
                exact hc1
              · rw [List.filter_cons_of_pos (by simp [hte]), List.length_cons]
                have h2 : (List.filter (fun p => decide (lower p.1 = teName)) tl).length
                    + 1 ≤ 1 := hc2
                show (List.filter (fun p => decide (lower p.1 = teName)) tl).length
                    + 1 + 0 ≤ 1
                omega
        · rename_i hnte
          obtain ⟨tl, htl, hl'⟩ := except_map_ok h
          obtain ⟨heq, hn, hcv, htv, hc1, hc2⟩ := normGo_ok_inv rest sawCL sawTE tl htl
          subst heq
          subst hl'
          refine ⟨rfl, ?_, ?_, ?_, ?_, ?_⟩
          · intro p hp
            rcases List.mem_cons.mp hp with h1 | h1
            · rw [h1]; exact hname
            · exact hn p h1
          · intro p hp
            rcases List.mem_cons.mp hp with h1 | h1
            · rw [h1]; intro hcl2; exact absurd hcl2 hncl
            · exact hcv p h1
          · intro p hp
            rcases List.mem_cons.mp hp with h1 | h1
            · rw [h1]; intro hte2; exact absurd hte2 hnte
            · exact htv p h1
          · rw [List.filter_cons_of_neg (by
              simp only [decide_eq_true_eq]
              exact hncl)]
            exact hc1
          · rw [List.filter_cons_of_neg (by
              simp only [decide_eq_true_eq]
              exact hnte)]
            exact hc2

theorem except_map_error {ε α β : Type} {f : α → β} {e : Except ε α} {x : ε} :
    e.map f = .error x ↔ e = .error x := by
  cases e <;> simp [Except.map]

theorem normGo_ok_of_valid : ∀ (l : HeadersT) (sawCL sawTE : Bool),
    (∀ p ∈ l, stripB p.1 = p.1) →
    (∀ p ∈ l, lower p.1 = clName → validCL p.2 = true) →
    (∀ p ∈ l, lower p.1 = teName → lower p.2 = chunkedB) →
    (l.filter (fun p => decide (lower p.1 = clName))).length +
      (if sawCL then 1 else 0) ≤ 1 →
    (l.filter (fun p => decide (lower p.1 = teName))).length +
      (if sawTE then 1 else 0) ≤ 1 →
    normGo sawCL sawTE l = .ok l
  | [], _, _, _, _, _, _, _ => rfl
  | (name, value) :: rest, sawCL, sawTE, hn, hcv, htv, hc1, hc2 => by
    have hname : stripB name = name := hn _ (List.mem_cons_self _ _)
    rw [normGo, if_neg (not_not_intro hname)]
    by_cases hcl : lower name = clName
    · rw [List.filter_cons_of_pos (by simp [hcl]), List.length_cons] at hc1
      have hsawCL : sawCL = false := by
        cases sawCL with
        | false => rfl
        | true =>
          have h1 : (List.filter (fun p => decide (lower p.1 = clName)) rest).length
              + 1 + 1 ≤ 1 := hc1
          omega
      subst hsawCL
      have hval : validCL value = true := hcv _ (List.mem_cons_self _ _) hcl
      rw [if_pos hcl, if_neg (by decide), hval]
      rw [if_neg (by decide)]
      have hclrest : (rest.filter (fun p => decide (lower p.1 = clName))).length +
          (if true then 1 else 0) ≤ 1 := by
        have h1 : (List.filter (fun p => decide (lower p.1 = clName)) rest).length
            + 1 + 0 ≤ 1 := hc1
        show (List.filter (fun p => decide (lower p.1 = clName)) rest).length
            + 1 ≤ 1
        omega
      have hterest : (rest.filter (fun p => decide (lower p.1 = teName))).length +
          (if sawTE then 1 else 0) ≤ 1 := by
        rw [List.filter_cons_of_neg (by
          simp only [decide_eq_true_eq]
          exact fun hte => clName_ne_teName (hcl.symm.trans hte))] at hc2
        exact hc2
      rw [normGo_ok_of_valid rest true sawTE
        (fun p hp => hn p (List.mem_cons_of_mem _ hp))
        (fun p hp => hcv p (List.mem_cons_of_mem _ hp))
        (fun p hp => htv p (List.mem_cons_of_mem _ hp)) hclrest hterest]
      rfl
    · rw [if_neg hcl]
      by_cases hte : lower name = teName
      · rw [List.filter_cons_of_pos (by simp [hte]), List.length_cons] at hc2
        have hsawTE : sawTE = false := by
          cases sawTE with
          | false => rfl
          | true =>
            have h1 : (List.filter (fun p => decide (lower p.1 = teName)) rest).length
                + 1 + 1 ≤ 1 := hc2
            omega
        subst hsawTE
        have hval : lower value = chunkedB := htv _ (List.mem_cons_self _ _) hte
        rw [if_pos hte, if_neg (by decide), if_neg (not_not_intro hval)]
        have hclrest : (rest.filter (fun p => decide (lower p.1 = clName))).length +
            (if sawCL then 1 else 0) ≤ 1 := by
          rw [List.filter_cons_of_neg (by
            simp only [decide_eq_true_eq]
            exact hcl)] at hc1
          exact hc1
        have hterest : (rest.filter (fun p => decide (lower p.1 = teName))).length +
            (if true then 1 else 0) ≤ 1 := by
          have h1 : (List.filter (fun p => decide (lower p.1 = teName)) rest).length
              + 1 + 0 ≤ 1 := hc2
          show (List.filter (fun p => decide (lower p.1 = teName)) rest).length
              + 1 ≤ 1
          omega
        rw [normGo_ok_of_valid rest sawCL true
          (fun p hp => hn p (List.mem_cons_of_mem _ hp))
          (fun p hp => hcv p (List.mem_cons_of_mem _ hp))
          (fun p hp => htv p (List.mem_cons_of_mem _ hp)) hclrest hterest]
        rfl
      · rw [if_neg hte]
        have hclrest : (rest.filter (fun p => decide (lower p.1 = clName))).length +
            (if sawCL then 1 else 0) ≤ 1 := by
          rw [List.filter_cons_of_neg (by
            simp only [decide_eq_true_eq]
            exact hcl)] at hc1
          exact hc1
        have hterest : (rest.filter (fun p => decide (lower p.1 = teName))).length +
            (if sawTE then 1 else 0) ≤ 1 := by
          rw [List.filter_cons_of_neg (by
            simp only [decide_eq_true_eq]
            exact hte)] at hc2
          exact hc2
        rw [normGo_ok_of_valid rest sawCL sawTE
          (fun p hp => hn p (List.mem_cons_of_mem _ hp))
          (fun p hp => hcv p (List.mem_cons_of_mem _ hp))
          (fun p hp => htv p (List.mem_cons_of_mem _ hp)) hclrest hterest]
        rfl

theorem normGo_error_iff_scan : ∀ (l : HeadersT) (sawCL sawTE : Bool)
    (e : HeaderError),
    normGo sawCL sawTE l = .error e ↔ violationScan sawCL sawTE l = some e
  | [], sawCL, sawTE, e => by simp [normGo, violationScan]
  | (name, value) :: rest, sawCL, sawTE, e => by
    rw [normGo, violationScan]
    by_cases h1 : stripB name ≠ name
    · rw [if_pos h1, if_pos h1]
      simp
    · rw [if_neg h1, if_neg h1]
      by_cases hcl : lower name = clName
      · rw [if_pos hcl, if_pos hcl]
        by_cases hs : sawCL = true
        · rw [if_pos hs, if_pos hs]
          simp
        · rw [if_neg hs, if_neg hs]
          by_cases hv : (!validCL value) = true
          · rw [if_pos hv, if_pos hv]
            simp
          · rw [if_neg hv, if_neg hv, except_map_error]
            exact normGo_error_iff_scan rest true sawTE e
      · rw [if_neg hcl, if_neg hcl]
        by_cases hte : lower name = teName
        · rw [if_pos hte, if_pos hte]
          by_cases hs : sawTE = true
          · rw [if_pos hs, if_pos hs]
            simp
          · rw [if_neg hs, if_neg hs]
            by_cases hv : lower value ≠ chunkedB
            · rw [if_pos hv, if_pos hv]
              simp
            · rw [if_neg hv, if_neg hv, except_map_error]
              exact normGo_error_iff_scan rest sawCL true e
        · rw [if_neg hte, if_neg hte, except_map_error]
          exact normGo_error_iff_scan rest sawCL sawTE e

theorem specTokens_eq_gchTokens (lc : Bool) (v : Bytes) :
    gchTokens lc v = specTokens lc v := by
  cases lc with
  | false =>
    unfold gchTokens specTokens
    rw [gchInner_eq]
    simp
  | true =>
    unfold gchTokens specTokens
    rw [gchInner_eq]
    simp only [if_true]
    rw [splitComma_lower, List.map_map]
    have hcomp : stripB ∘ lower = lower ∘ stripB := funext fun p => stripB_lower p
    rw [hcomp, ← List.map_map, List.filter_map]
    have hpred : ((fun s : Bytes => decide (s ≠ [])) ∘ lower) =
        (fun s : Bytes => decide (s ≠ [])) := by
      funext s
      simp [Function.comp, lower_eq_nil]
    rw [hpred]

theorem foldl_filter_append (nameLower : Bytes) : ∀ (l : HeadersT) (acc : HeadersT),
    l.foldl (fun acc p => if lower p.1 ≠ nameLower then acc ++ [p] else acc) acc =
      acc ++ l.filter (fun p => decide (lower p.1 ≠ nameLower))
  | [], acc => by simp
  | p :: rest, acc => by
    rw [List.foldl_cons]
    by_cases h : lower p.1 ≠ nameLower
    · rw [if_pos h, foldl_filter_append nameLower rest (acc ++ [p]),
        List.filter_cons_of_pos (by simpa using h), List.append_assoc]
      rfl
    · rw [if_neg h, foldl_filter_append nameLower rest acc,
        List.filter_cons_of_neg (by simpa using h)]

theorem foldl_append_map (name : Bytes) : ∀ (vs : List Bytes) (acc : HeadersT),
    vs.foldl (fun acc v => acc ++ [(name, v)]) acc =
      acc ++ vs.map (fun v => (name, v))
  | [], acc => by simp
  | v :: rest, acc => by
    rw [List.foldl_cons, foldl_append_map name rest (acc ++ [(name, v)]),
      List.append_assoc]
    rfl

theorem gch_te_of_norm {l : HeadersT}
    (htv : ∀ p ∈ l, lower p.1 = teName → lower p.2 = chunkedB)
    (hlen : (l.filter (fun p => decide (lower p.1 = teName))).length ≤ 1) :
    get_comma_header l (bs "Transfer-Encoding") true = [] ∨
      get_comma_header l (bs "Transfer-Encoding") true = [chunkedB] := by
  have hname : lower (bs "Transfer-Encoding") = teName := by decide
  unfold get_comma_header
  rw [hname, gchLoop_eq]
  rcases length_le_one_cases hlen with hnil | ⟨q, hq⟩
  · left
    rw [hnil]
    rfl
  · right
    rw [hq]
    have hqmem : q ∈ l.filter (fun p => decide (lower p.1 = teName)) := by
      rw [hq]
      exact List.mem_cons_self _ _
    obtain ⟨hmem, hcond⟩ := List.mem_filter.mp hqmem
    have hch := htv q hmem (by simpa using hcond)
    simp [gchTokens_chunked hch]

theorem gch_cl_of_norm {l : HeadersT}
    (hcv : ∀ p ∈ l, lower p.1 = clName → validCL p.2 = true)
    (hlen : (l.filter (fun p => decide (lower p.1 = clName))).length ≤ 1) :
    get_comma_header l (bs "Content-Length") true = [] ∨
      ∃ q, q ∈ l ∧ validCL q.2 = true ∧
        get_comma_header l (bs "Content-Length") true = [q.2] := by
  have hname : lower (bs "Content-Length") = clName := by decide
  unfold get_comma_header
  rw [hname, gchLoop_eq]
  rcases length_le_one_cases hlen with hnil | ⟨q, hq⟩
  · left
    rw [hnil]
    rfl
  · right
    have hqmem : q ∈ l.filter (fun p => decide (lower p.1 = clName)) := by
      rw [hq]
      exact List.mem_cons_self _ _
    obtain ⟨hmem, hcond⟩ := List.mem_filter.mp hqmem
    have hv := hcv q hmem (by simpa using hcond)
    refine ⟨q, hmem, hv, ?_⟩
    rw [hq]
    simp [gchTokens_digits hv]

theorem framing_at_most_one (headers : HeadersT) (r : Option Bytes × Option Int)
    (h : framing_headers headers = .ok r) : r.1 = none ∨ r.2 = none := by
  unfold framing_headers at h
  split at h
  · split at h
    · rw [← Except.ok.inj h]
      right
      rfl
    · exact absurd h (by simp)
  · split at h
    · rw [← Except.ok.inj h]
      left
      rfl
    · split at h
      · rw [← Except.ok.inj h]
        left
        rfl
      · exact absurd h (by simp)

/-- Claim C1: for every header list accepted by the Normalizer,
`framing_headers` returns `(b"chunked", None)` when the Transfer-Encoding
comma-list is non-empty; otherwise `(None, n)` with `n` the non-negative
integer parsed from the first Content-Length comma token when that list is
non-empty; otherwise `(None, None)`; and at most one of the two result
components is non-absent. -/
theorem claim_C1 (h h' : HeadersT) (hn0 : normalize_and_validate h = .ok h') :
    (get_comma_header h' (bs "Transfer-Encoding") true ≠ [] →
      framing_headers h' = .ok (some (bs "chunked"), none)) ∧
    (get_comma_header h' (bs "Transfer-Encoding") true = [] →
      ∀ c cs, get_comma_header h' (bs "Content-Length") true = c :: cs →
        ∃ n : Nat, pyInt c = some (n : Int) ∧
          framing_headers h' = .ok (none, some (n : Int))) ∧
    (get_comma_header h' (bs "Transfer-Encoding") true = [] →
      get_comma_header h' (bs "Content-Length") true = [] →
      framing_headers h' = .ok (none, none)) ∧
    (∀ r, framing_headers h' = .ok r → r.1 = none ∨ r.2 = none) := by
  obtain ⟨heq, hnm, hcv, htv, hc1, hc2⟩ := normGo_ok_inv h false false h' hn0
  subst heq
  have hc1' : (h'.filter (fun p => decide (lower p.1 = clName))).length ≤ 1 := by
    have hx : (h'.filter (fun p => decide (lower p.1 = clName))).length + 0 ≤ 1 := hc1
    omega
  have hc2' : (h'.filter (fun p => decide (lower p.1 = teName))).length ≤ 1 := by
    have hx : (h'.filter (fun p => decide (lower p.1 = teName))).length + 0 ≤ 1 := hc2
    omega
  refine ⟨?_, ?_, ?_, framing_at_most_one h'⟩
  · intro hne
    rcases gch_te_of_norm htv hc2' with hte | hte
    · exact absurd hte hne
    · have hne2 : get_comma_header h' (bs "Transfer-Encoding") true ≠ [] := by
        rw [hte]
        simp
      unfold framing_headers
      rw [if_pos hne2, if_pos hte]
      rfl
  · intro hte c cs hcl
    rcases gch_cl_of_norm hcv hc1' with hnil | ⟨q, hqmem, hqv, hqe⟩
    · rw [hnil] at hcl
      exact absurd hcl (by simp)
    · rw [hqe] at hcl
      obtain ⟨hqc, hcs⟩ := List.cons.inj hcl
      subst hqc
      obtain ⟨n, hpy⟩ := pyInt_validCL hqv
      refine ⟨n, hpy, ?_⟩
      unfold framing_headers
      rw [if_neg (not_not_intro hte), hqe]
      show (match pyInt q.2 with
        | some m =>
          (Except.ok (none, some m) : Except FramingError (Option Bytes × Option Int))
        | none => Except.error FramingError.intParse) = Except.ok (none, some (n : Int))
      rw [hpy]
  · intro hte hcl
    unfold framing_headers
    rw [if_neg (not_not_intro hte), hcl]

/-- Claim C1 witness: the three framing outcomes at concrete normalized
inputs. -/
theorem claim_C1_witness :
    framing_headers [(bs "Transfer-Encoding", bs "chunked")] =
        .ok (some (bs "chunked"), none) ∧
    framing_headers [(bs "Content-Length", bs "42")] = .ok (none, some 42) ∧
    framing_headers ([] : HeadersT) = .ok (none, none) := by
  refine ⟨?_, ?_, ?_⟩
  · exact (claim_C1 [(bs "Transfer-Encoding", bs "chunked")]
      [(bs "Transfer-Encoding", bs "chunked")] (by decide)).1 (by decide)
  · obtain ⟨n, hp, hf⟩ := (claim_C1 [(bs "Content-Length", bs "42")]
      [(bs "Content-Length", bs "42")] (by decide)).2.1 (by decide)
      (bs "42") [] (by decide)
    have hn : pyInt (bs "42") = some 42 := by decide
    rw [hn] at hp
    have : ((n : Nat) : Int) = 42 := (Option.some.inj hp).symm
    rw [hf, this]
  · exact (claim_C1 ([] : HeadersT) ([] : HeadersT) (by decide)).2.2.1
      (by decide) (by decide)

/-- Claim C2 counterexample: on `[("Content-Length", " 5")]` the code raises
`bad Content-Length` (the regex sees the raw value `" 5"`), yet the claim's
violation scan — which validates the whitespace-STRIPPED value `"5"` — finds
no violation, so the claimed if-and-only-if characterisation is false. -/
theorem claim_C2_counterexample :
    normalize_and_validate [(bs "Content-Length", bs " 5")] =
        .error .badContentLength ∧
    violationScanStripped false false [(bs "Content-Length", bs " 5")] = none :=
  ⟨by decide, by decide⟩

/-- Claim C2 as amended: `normalize_and_validate` raises if and only if the
in-order scan finds a whitespace-surrounded name, a duplicate Content-Length
(even with equal values), a Content-Length whose RAW value is not a
non-empty digit run, a duplicate Transfer-Encoding, or a Transfer-Encoding
whose RAW lower-cased value is not exactly `chunked`; the first violation is
the reported error, and the `Except` result carries no partial list on
failure. -/
theorem claim_C2_amended (h : HeadersT) (e : HeaderError) :
    normalize_and_validate h = .error e ↔ violationScan false false h = some e :=
  normGo_error_iff_scan h false false e

/-- Claim C3 counterexample: the value `" bar "` is stored byte-for-byte by
`normalize_and_validate`, but its whitespace-stripped form differs, so the
claim that stored values are whitespace-stripped is false. -/
theorem claim_C3_counterexample :
    normalize_and_validate [(bs "Foo", bs " bar ")] =
        .ok [(bs "Foo", bs " bar ")] ∧
    stripB (bs " bar ") ≠ bs " bar " :=
  ⟨by decide, by decide⟩

/-- Claim C3 as amended: for every entry that `normalize_and_validate`
accepts, the stored value equals the byte-converted input value UNCHANGED
(no whitespace stripping is performed), and the name is kept byte-for-byte
with no case change. -/
theorem claim_C3_amended (h h' : HeadersT)
    (hn0 : normalize_and_validate h = .ok h') :
    h'.map Prod.snd = h.map Prod.snd ∧ h'.map Prod.fst = h.map Prod.fst := by
  obtain ⟨heq, -, -, -, -, -⟩ := normGo_ok_inv h false false h' hn0
  subst heq
  exact ⟨rfl, rfl⟩

/-- Claim C3 witness: the amended claim applied at a concrete accepted
input. -/
theorem claim_C3_witness :
    ([(bs "Foo", bs " bar ")] : HeadersT).map Prod.snd =
        ([(bs "Foo", bs " bar ")] : HeadersT).map Prod.snd ∧
    ([(bs "Foo", bs " bar ")] : HeadersT).map Prod.fst =
        ([(bs "Foo", bs " bar ")] : HeadersT).map Prod.fst :=
  claim_C3_amended [(bs "Foo", bs " bar ")] [(bs "Foo", bs " bar ")] (by decide)

/-- Claim C4: on any output of `normalize_and_validate`, a non-empty
Transfer-Encoding comma-list is exactly `[b"chunked"]`, so the assert inside
`framing_headers` holds and its failure branch is unreachable. -/
theorem claim_C4 (h h' : HeadersT) (hn0 : normalize_and_validate h = .ok h') :
    (get_comma_header h' (bs "Transfer-Encoding") true ≠ [] →
      get_comma_header h' (bs "Transfer-Encoding") true = [bs "chunked"]) ∧
    framing_headers h' ≠ .error .assertChunked := by
  obtain ⟨heq, hnm, hcv, htv, hc1, hc2⟩ := normGo_ok_inv h false false h' hn0
  subst heq
  have hc2' : (h'.filter (fun p => decide (lower p.1 = teName))).length ≤ 1 := by
    have hx : (h'.filter (fun p => decide (lower p.1 = teName))).length + 0 ≤ 1 := hc2
    omega
  constructor
  · intro hne
    rcases gch_te_of_norm htv hc2' with hte | hte
    · exact absurd hte hne
    · exact hte
  · intro hcontra
    unfold framing_headers at hcontra
    rcases gch_te_of_norm htv hc2' with hte | hte
    · rw [if_neg (not_not_intro hte)] at hcontra
      split at hcontra
      · exact absurd hcontra (by simp)
      · split at hcontra
        · exact absurd hcontra (by simp)
        · exact absurd hcontra (by decide)
    · have hne2 : get_comma_header h' (bs "Transfer-Encoding") true ≠ [] := by
        rw [hte]
        simp
      rw [if_pos hne2, if_pos hte] at hcontra
      exact absurd hcontra (by simp)

/-- Claim C4 witness: the assert-validity facts at a concrete normalized
input carrying a Transfer-Encoding header. -/
theorem claim_C4_witness :
    get_comma_header [(bs "Transfer-Encoding", bs "Chunked")]
        (bs "Transfer-Encoding") true = [bs "chunked"] ∧
    framing_headers [(bs "Transfer-Encoding", bs "Chunked")] ≠
        .error .assertChunked := by
  have hc := claim_C4 [(bs "Transfer-Encoding", bs "Chunked")]
    [(bs "Transfer-Encoding", bs "Chunked")] (by decide)
  exact ⟨hc.1 (by decide), hc.2⟩

/-- Claim C5: whenever `normalize_and_validate` succeeds, the output has
exactly one entry per input entry, in the same order, with each name (and in
fact the whole entry) kept byte-for-byte; every entry that did not fail is
appended regardless of its name. -/
theorem claim_C5 (h h' : HeadersT) (hn0 : normalize_and_validate h = .ok h') :
    h'.length = h.length ∧ h'.map Prod.fst = h.map Prod.fst ∧ h' = h := by
  obtain ⟨heq, -, -, -, -, -⟩ := normGo_ok_inv h false false h' hn0
  subst heq
  exact ⟨rfl, rfl, rfl⟩

/-- Claim C5 witness: the claim applied at a concrete two-entry input. -/
theorem claim_C5_witness :
    ([(bs "Host", bs "example"), (bs "Accept", bs "text/plain")] : HeadersT).length
        = 2 ∧
    ([(bs "Host", bs "example"), (bs "Accept", bs "text/plain")] : HeadersT) =
        [(bs "Host", bs "example"), (bs "Accept", bs "text/plain")] := by
  have hc := claim_C5 [(bs "Host", bs "example"), (bs "Accept", bs "text/plain")]
    [(bs "Host", bs "example"), (bs "Accept", bs "text/plain")] (by decide)
  exact ⟨hc.1, hc.2.2⟩

/-- Claim C6: `normalize_and_validate` is idempotent: a valid byte-pair
header list (names whitespace-clean, at most one all-digit Content-Length,
at most one Transfer-Encoding with value `chunked` up to case) is returned
unchanged, and re-normalizing the output of any accepted call returns an
identical list. -/
theorem claim_C6 :
    (∀ h : HeadersT, validListB h = true → normalize_and_validate h = .ok h) ∧
    (∀ h h' : HeadersT, normalize_and_validate h = .ok h' →
      normalize_and_validate h' = .ok h') := by
  constructor
  · intro h hv
    simp only [validListB, Bool.and_eq_true, List.all_eq_true,
      decide_eq_true_eq] at hv
    obtain ⟨⟨⟨⟨h1, h2⟩, h3⟩, h4⟩, h5⟩ := hv
    apply normGo_ok_of_valid h false false h1
    · intro p hp hcl
      simpa [hcl] using h3 p hp
    · intro p hp hte
      simpa [hte] using h5 p hp
    · show (h.filter (fun p => decide (lower p.1 = clName))).length + 0 ≤ 1
      omega
    · show (h.filter (fun p => decide (lower p.1 = teName))).length + 0 ≤ 1
      omega
  · intro h h' hok
    obtain ⟨heq, hnm, hcv, htv, hc1, hc2⟩ := normGo_ok_inv h false false h' hok
    subst heq
    exact normGo_ok_of_valid h' false false hnm hcv htv hc1 hc2

/-- Claim C6 witness: idempotence at a concrete valid list. -/
theorem claim_C6_witness :
    normalize_and_validate [(bs "Host", bs "a"), (bs "Content-Length", bs "3")] =
      .ok [(bs "Host", bs "a"), (bs "Content-Length", bs "3")] :=
  claim_C6.1 [(bs "Host", bs "a"), (bs "Content-Length", bs "3")] (by decide)

/-- Claim C7: `get_comma_header` matches names case-insensitively across all
occurrences and, per matching header in list order, splits the value on
commas, strips each piece, drops empty pieces and lower-cases each piece iff
the `lowercase` flag is set, concatenating in order — i.e. it coincides with
the spec-worded `getCommaListSpec` — and on `[("X", "a, b ,c")]` with
case-folding it returns `["a", "b", "c"]`. -/
theorem claim_C7 :
    (∀ (headers : HeadersT) (name : Bytes) (lowercase : Bool),
      get_comma_header headers name lowercase =
        getCommaListSpec headers name lowercase) ∧
    get_comma_header [(bs "X", bs "a, b ,c")] (bs "X") true =
      [bs "a", bs "b", bs "c"] := by
  constructor
  · intro headers name lc
    unfold get_comma_header getCommaListSpec
    rw [gchLoop_eq]
    have hfun : (fun p : Bytes × Bytes => gchTokens lc p.2) =
        (fun p : Bytes × Bytes => specTokens lc p.2) :=
      funext fun p => specTokens_eq_gchTokens lc p.2
    rw [hfun]
  · decide

/-- Claim C8: `set_comma_header` rewrites the list to the original entries
whose names do not case-insensitively match, kept unchanged in order,
followed by one appended entry per new value; e.g.
`[("A","1"),("B","2"),("A","3")]` with name `"A"` and values `["9"]` becomes
`[("B","2"),("A","9")]`. -/
theorem claim_C8 :
    (∀ (headers : HeadersT) (name : Bytes) (newValues : List Bytes),
      set_comma_header headers name newValues =
        headers.filter (fun p => decide (lower p.1 ≠ lower name)) ++
          newValues.map (fun v => (name, v))) ∧
    set_comma_header [(bs "A", bs "1"), (bs "B", bs "2"), (bs "A", bs "3")]
      (bs "A") [bs "9"] = [(bs "B", bs "2"), (bs "A", bs "9")] := by
  constructor
  · intro headers name newValues
    unfold set_comma_header
    rw [foldl_filter_append, foldl_append_map]
    simp
  · decide

/-- Claim C9: `has_expect_100_continue` returns false whenever the request's
http version is lexicographically below `1.1` regardless of headers, and
otherwise returns true iff the exact byte token `100-continue` (no case
folding) occurs among the Expect comma-values; in particular
`Expect: 100-Continue` yields false even under version 1.1. -/
theorem claim_C9 (r : Request) :
    (bytesLt r.http_version (bs "1.1") = true →
      has_expect_100_continue r = false) ∧
    (bytesLt r.http_version (bs "1.1") = false →
      (has_expect_100_continue r = true ↔
        bs "100-continue" ∈ get_comma_header r.headers (bs "Expect") false)) ∧
    has_expect_100_continue ⟨bs "1.1", [(bs "Expect", bs "100-Continue")]⟩ =
      false := by
  refine ⟨?_, ?_, by decide⟩
  · intro hlt
    unfold has_expect_100_continue
    rw [hlt]
    rfl
  · intro hlt
    unfold has_expect_100_continue
    rw [hlt]
    exact ⟨of_decide_eq_true, decide_eq_true⟩

/-- Claim C9 witness: both branches at concrete requests. -/
theorem claim_C9_witness :
    has_expect_100_continue ⟨bs "1.0", [(bs "Expect", bs "100-continue")]⟩ =
        false ∧
    (has_expect_100_continue ⟨bs "1.1", [(bs "Expect", bs "100-continue")]⟩ =
        true ↔
      bs "100-continue" ∈
        get_comma_header [(bs "Expect", bs "100-continue")] (bs "Expect") false) :=
  ⟨(claim_C9 ⟨bs "1.0", [(bs "Expect", bs "100-continue")]⟩).1 (by decide),
    (claim_C9 ⟨bs "1.1", [(bs "Expect", bs "100-continue")]⟩).2.1 (by decide)⟩

/-- Claim C10: `framing_headers` performs no Content-Length validation of
its own: whenever the Transfer-Encoding comma-list is empty and the
Content-Length comma-list is non-empty (normalized or not), it returns the
integer parse of the first comma token only, ignoring all further tokens. -/
theorem claim_C10 (headers : HeadersT) (c : Bytes) (cs : List Bytes) (n : Int)
    (hte : get_comma_header headers (bs "Transfer-Encoding") true = [])
    (hcl : get_comma_header headers (bs "Content-Length") true = c :: cs)
    (hpy : pyInt c = some n) :
    framing_headers headers = .ok (none, some n) := by
  unfold framing_headers
  rw [if_neg (not_not_intro hte), hcl]
  show (match pyInt c with
    | some m =>
      (Except.ok (none, some m) : Except FramingError (Option Bytes × Option Int))
    | none => Except.error FramingError.intParse) = Except.ok (none, some n)
  rw [hpy]

/-- Claim C10 witness: the non-normalized list `[("Content-Length", "5, 6")]`
yields `(None, 5)`, the second token silently ignored. -/
theorem claim_C10_witness :
    framing_headers [(bs "Content-Length", bs "5, 6")] = .ok (none, some 5) :=
  claim_C10 [(bs "Content-Length", bs "5, 6")] (bs "5") [bs "6"] 5
    (by decide) (by decide) (by decide)
